import Mathlib

/-!
Verification of the ID3 decision-tree learner (`id3.py`).

The embedding models rows as association lists from attribute names to the
categorical (string) values read from the CSV, and a `Dataset` as the state
that `parse_csv` / `get_distinct_values` leave on the `ID3` object: the
ordered list of independent attributes, the dependent attribute, and the
data rows.  `Dataset.values` is the per-attribute domain computed once over
all rows, as in `get_distinct_values` (a Python `set`, modelled as the
first-occurrence-ordered deduplicated list of observed values).

Python's dynamically-typed `value` argument of `entropy` (a CSV string, or
the boolean sentinel `True`) is the type `EVal`; `pyEq` is Python `==`
between a row's string value and such a value (a `bool` never equals a
string in Python).

The `dtree` module (class `DTree`) is not part of the sources; wherever its
behaviour decides a property (eligible-attribute bookkeeping through
`self.dtree.attributes`, attachment of children), the definitions below are
modelled from the spec and say so in their doc comments.
-/

/-- A data row: mapping from attribute names (independent and dependent) to
categorical values, as built by `parse_csv` (`dict(zip(attributes, row))`). -/
abbrev Row : Type := List (String × String)

/-- Python `row[attr]`.  Under the dataset invariant every row has every
attribute, so the default is never hit on well-formed data. -/
def rowGet (r : Row) (a : String) : String :=
  (r.lookup a).getD ""

/-- The state of the `ID3` object after `parse_csv`: independent attributes in
original column order (`self.attributes`), the dependent attribute
(`self.dependent`), and the rows (`self.data`). -/
structure Dataset where
  attributes : List String
  dependent : String
  data : List Row

/-- The attribute domains computed by `get_distinct_values` over *all* rows:
`self.values[attr] = set(r[attr] for r in self.data)`.  The Python set is
modelled as the deduplicated list of observed values. -/
def Dataset.values (ds : Dataset) (attr : String) : List String :=
  (ds.data.map (fun r => rowGet r attr)).dedup

/-- The dynamically-typed `value` argument of `entropy` / `value_occurrences`:
either a CSV string or a Python boolean (the sentinel). -/
inductive EVal : Type where
  | str (s : String)
  | bool (b : Bool)
deriving DecidableEq

/-- Python `isinstance(value, bool)`. -/
def EVal.isBool : EVal → Bool
  | .str _ => false
  | .bool _ => true

/-- Python `row[attr] == value` where a row value is always a string: a Python
`bool` is never `==` to a (non-numeric) string. -/
def pyEq (s : String) : EVal → Bool
  | .str t => s == t
  | .bool _ => false

/-- The rows of `subset` that the loop of `value_occurrences` counts:
`if row[attr] == value or isinstance(value, bool)`. -/
def counted_rows (subset : List Row) (attr : String) (value : EVal) : List Row :=
  subset.filter (fun row => pyEq (rowGet row attr) value || value.isBool)

/-- The dependent values of the counted rows (the increments
`counts[row[self.dependent]] += 1` of `value_occurrences`). -/
def counted_deps (dep : String) (subset : List Row) (attr : String) (value : EVal) :
    List String :=
  (counted_rows subset attr value).map (fun row => rowGet row dep)

/-- A Python `Counter` built by incrementing over a list: one `(key, count)`
entry per distinct element, keys in first-occurrence order. -/
def countsList (l : List String) : List (String × Nat) :=
  l.dedup.map (fun v => (v, l.count v))

/-- The `Counter` returned by `value_occurrences`: occurrences per dependent
value among the counted rows. -/
def value_occurrences (ds : Dataset) (subset : List Row) (attr : String) (value : EVal) :
    List (String × Nat) :=
  countsList (counted_deps ds.dependent subset attr value)

/-- The `Counter` returned by `attr_counts`: occurrences per value of the given
attribute over `subset`. -/
def attr_counts (subset : List Row) (attr : String) : List (String × Nat) :=
  countsList (subset.map (fun r => rowGet r attr))

/-- Helper: Shannon entropy (base 2) of a counts list, as computed by the loop
of `ID3.entropy`: `total = sum(occs.values())`, and for each key,
`entropy += -(proportion * log2 proportion)`. -/
noncomputable def entropyOfCounts (occs : List (String × Nat)) : ℝ :=
  (occs.map (fun p =>
    -(((p.2 : ℝ) / (((occs.map Prod.snd).sum : ℕ) : ℝ)) *
      Real.logb 2 ((p.2 : ℝ) / (((occs.map Prod.snd).sum : ℕ) : ℝ))))).sum

/-- `ID3.entropy(subset, attr, value)`. -/
noncomputable def entropy (ds : Dataset) (subset : List Row) (attr : String) (value : EVal) :
    ℝ :=
  entropyOfCounts (value_occurrences ds subset attr value)

/-- `ID3.get_base_entropy(subset)` = `entropy(subset, self.dependent, True)`. -/
noncomputable def get_base_entropy (ds : Dataset) (subset : List Row) : ℝ :=
  entropy ds subset ds.dependent (EVal.bool true)

/-- One term of the loop of `ID3.information_gain`:
`-((occs[value]/total) * entropy(subset, attr, value))`, where `occs` is
`attr_counts(subset, attr)` (a `Counter`, so a missing key reads as 0) and
`total = sum(occs.values())`. -/
noncomputable def gain_term (ds : Dataset) (subset : List Row) (attr v : String) : ℝ :=
  -(((((attr_counts subset attr).lookup v).getD 0 : ℕ) : ℝ) /
      ((((attr_counts subset attr).map Prod.snd).sum : ℕ) : ℝ) *
    entropy ds subset attr (EVal.str v))

/-- `ID3.information_gain(subset, attr)`: the base entropy plus one `gain_term`
per value in the full dataset's domain of `attr`. -/
noncomputable def information_gain (ds : Dataset) (subset : List Row) (attr : String) : ℝ :=
  get_base_entropy ds subset + ((ds.values attr).map (gain_term ds subset attr)).sum

/-- `ID3.filter_subset(subset, attr, value)`. -/
def filter_subset (subset : List Row) (attr : String) (value : String) : List Row :=
  subset.filter (fun r => rowGet r attr == value)

/-- Modelled from the spec: the `dtree` module (class `DTree`) is missing from
the sources, and `ID3.remaining_attributes` reads `self.dtree.attributes`,
whose maintenance lives in that module.  Per the spec, the eligible attributes
at a recursion frame are the dataset's independent attributes minus the split
attributes used on the path from the root to the frame's parent inclusive
(`used` below), kept in original column order. -/
def remaining_attributes (ds : Dataset) (used : List String) : List String :=
  ds.attributes.filter (fun a => !(used.contains a))

/-- Python `max(xs, key=...)` over a nonempty tail, started from accumulator
`acc`: scans left to right and replaces the current maximum only on a strictly
greater key, so the first maximum wins ties. -/
def maxBySnd {α β : Type _} [LinearOrder β] : α × β → List (α × β) → α × β
  | acc, [] => acc
  | acc, x :: xs => maxBySnd (if acc.2 < x.2 then x else acc) xs

/-- Python `max(xs, key=...)` on a pair list (keyed by the second component).
The default is returned only on the empty list, on which Python would raise
`ValueError`; every use in `create_tree` is guarded by nonemptiness. -/
def pyMax {α β : Type _} [LinearOrder β] (dflt : α × β) : List (α × β) → α × β
  | [] => dflt
  | x :: xs => maxBySnd x xs

theorem maxBySnd_mem {α β : Type _} [LinearOrder β] (x : α × β) (xs : List (α × β)) :
    maxBySnd x xs ∈ x :: xs := by
  induction xs generalizing x with
  | nil => simp [maxBySnd]
  | cons y ys ih =>
    rw [maxBySnd]
    rcases List.mem_cons.1 (ih (if x.2 < y.2 then y else x)) with h | h
    · rw [h]
      by_cases hxy : x.2 < y.2 <;> simp [hxy]
    · exact List.mem_cons_of_mem _ (List.mem_cons_of_mem _ h)

theorem pyMax_mem {α β : Type _} [LinearOrder β] (dflt x : α × β) (xs : List (α × β)) :
    pyMax dflt (x :: xs) ∈ x :: xs :=
  maxBySnd_mem x xs

theorem length_filter_ne_lt {l : List String} {b : String} (hb : b ∈ l) :
    (l.filter (fun a => !(a == b))).length < l.length := by
  induction l with
  | nil => cases hb
  | cons x xs ih =>
    rcases List.mem_cons.1 hb with rfl | hxs
    · simp only [List.filter_cons, beq_self_eq_true, Bool.not_true]
      exact Nat.lt_succ_of_le (List.length_filter_le _ _)
    · by_cases h : (x == b) = true
      · simp only [List.filter_cons, h, Bool.not_true]
        exact Nat.lt_succ_of_lt (ih hxs)
      · simp only [List.filter_cons, h, Bool.not_false, List.length_cons]
        exact Nat.succ_lt_succ (ih hxs)

theorem remaining_attributes_append (ds : Dataset) (used : List String) (b : String) :
    remaining_attributes ds (used ++ [b]) =
      (remaining_attributes ds used).filter (fun a => !(a == b)) := by
  simp only [remaining_attributes, List.filter_filter]
  apply List.filter_congr
  intro a _
  by_cases hab : a = b <;> by_cases hau : a ∈ used <;> simp [hab, hau]

theorem remaining_attributes_lt (ds : Dataset) (used : List String) (b : String)
    (hb : b ∈ remaining_attributes ds used) :
    (remaining_attributes ds (used ++ [b])).length <
      (remaining_attributes ds used).length := by
  rw [remaining_attributes_append]
  exact length_filter_ne_lt hb

/-- Modelled from the spec: the node type of the missing `dtree` module.  An
internal node carries the split attribute, the information gain that selected
it, the value of the parent's split attribute reaching it, and one child per
domain value of the split attribute; a leaf carries its label. -/
inductive DTree : Type where
  | leaf (label : String) (parent_value : Option String)
  | node (attr : String) (igain : ℝ) (parent_value : Option String)
      (children : List (String × DTree))

/-- The attribute/gain pair selected by the `else` branch of `create_tree`:
Python `max(igains, key=lambda a: a[1])` over the information gains of the
eligible attributes, in their enumeration order. -/
noncomputable def best_attr (ds : Dataset) (used : List String) (subset : List Row) :
    String × ℝ :=
  pyMax ("", 0)
    ((remaining_attributes ds used).map (fun a => (a, information_gain ds subset a)))

theorem best_attr_mem (ds : Dataset) (used : List String) (subset : List Row)
    (hne : remaining_attributes ds used ≠ []) :
    (best_attr ds used subset).1 ∈ remaining_attributes ds used := by
  obtain ⟨a, rest, hrest⟩ := List.exists_cons_of_ne_nil hne
  have hmem : best_attr ds used subset ∈
      (remaining_attributes ds used).map (fun x => (x, information_gain ds subset x)) := by
    rw [best_attr, hrest, List.map_cons]
    exact pyMax_mem _ _ _
  obtain ⟨x, hx, hxe⟩ := List.mem_map.1 hmem
  rw [← hxe]
  exact hx

/-- `ID3.create_tree`, with the recursion state made explicit: `used` is the
list of split attributes on the path from the root to this frame's parent
(inclusive), and `subset` is this frame's row subset (the child's filtering of
the parent's subset happens at the recursive call).  Eligibility bookkeeping
and child attachment are modelled from the spec (see `remaining_attributes`);
everything else follows `id3.py` line by line.  The branch taken when the
eligible list is empty labels with the most common dependent value
(`max(counts, key=...)`); the inner `pyMax` default is only hit where Python
would raise, on an empty tally with no eligible attributes. -/
noncomputable def create_tree (ds : Dataset) (used : List String) (subset : List Row)
    (parent_value : Option String) : DTree :=
  if (attr_counts subset ds.dependent).length = 1 then
    DTree.leaf ((attr_counts subset ds.dependent).headD ("", 0)).1 parent_value
  else if hr : (remaining_attributes ds used).isEmpty then
    DTree.leaf (pyMax ("", 0) (attr_counts subset ds.dependent)).1 parent_value
  else
    DTree.node (best_attr ds used subset).1 (best_attr ds used subset).2 parent_value
      ((ds.values (best_attr ds used subset).1).map (fun v =>
        (v, create_tree ds (used ++ [(best_attr ds used subset).1])
          (filter_subset subset (best_attr ds used subset).1 v) (some v))))
termination_by (remaining_attributes ds used).length
decreasing_by
  apply remaining_attributes_lt
  apply best_attr_mem
  intro h
  rw [h] at hr
  exact hr rfl

/-- `ID3.learn` after parsing: build the tree from the full data with no
attribute yet used. -/
noncomputable def learn (ds : Dataset) : DTree :=
  create_tree ds [] ds.data none

/-! ### Basic facts about the counting primitives -/

theorem counted_rows_bool (subset : List Row) (attr : String) (b : Bool) :
    counted_rows subset attr (EVal.bool b) = subset := by
  simp [counted_rows, EVal.isBool]

theorem counted_rows_str (subset : List Row) (attr : String) (s : String) :
    counted_rows subset attr (EVal.str s) =
      subset.filter (fun r => rowGet r attr == s) := by
  simp only [counted_rows]
  apply List.filter_congr
  intro r _
  simp [pyEq, EVal.isBool]

theorem counted_deps_bool (dep : String) (subset : List Row) (attr : String) (b : Bool) :
    counted_deps dep subset attr (EVal.bool b) = subset.map (fun r => rowGet r dep) := by
  simp [counted_deps, counted_rows_bool]

theorem toFinset_dedup' (l : List String) : l.dedup.toFinset = l.toFinset := by
  ext a
  simp [List.mem_toFinset, List.mem_dedup]

theorem sum_countsList (l : List String) : ((countsList l).map Prod.snd).sum = l.length := by
  have h0 : (countsList l).map Prod.snd = l.dedup.map (fun v => l.count v) := by
    rw [countsList, List.map_map]
    rfl
  rw [h0, ← List.sum_toFinset _ (List.nodup_dedup l), toFinset_dedup' l]
  exact List.sum_toFinset_count_eq_length l

theorem lookup_map_key {β : Type _} (keys : List String) (f : String → β) (v : String) :
    (keys.map (fun k => (k, f k))).lookup v =
      if v ∈ keys then some (f v) else none := by
  induction keys with
  | nil => simp [List.lookup]
  | cons k ks ih =>
    by_cases hvk : v = k
    · simp [List.lookup, hvk]
    · have hbeq : (v == k) = false := by simp [hvk]
      simp [List.lookup, hbeq, ih, hvk]

theorem lookup_countsList (l : List String) (v : String) :
    ((countsList l).lookup v).getD 0 = l.count v := by
  rw [countsList, lookup_map_key]
  by_cases hv : v ∈ l.dedup
  · simp [hv]
  · have hvl : v ∉ l := fun h => hv (List.mem_dedup.2 h)
    simp [hv, List.count_eq_zero_of_not_mem hvl]

/-! ### Claim theorems C3 and C10 -/

/-- C3 counterexample: the claim says that for every `value` other than the
sentinel `True`, only rows with `row[attr] == value` are counted; but at the
boolean value `False` the code counts the row `{A: x, L: yes}` for attribute
`A`, although `x == False` is false in Python — `isinstance(value, bool)`
disables the filter for every boolean, not just `True`. -/
theorem c3_counterexample :
    counted_rows [[("A", "x"), ("L", "yes")]] "A" (EVal.bool false) ≠
      [[("A", "x"), ("L", "yes")]].filter
        (fun r => pyEq (rowGet r "A") (EVal.bool false)) := by
  decide

/-- C3 (amended): when `value` is any boolean (`True` or `False`), every row of
the subset is counted regardless of its value for `attribute`; when `value` is
a string, only rows with `row[attribute] == value` are counted. -/
theorem c3_filter_policy (subset : List Row) (attr : String) :
    (∀ b : Bool, counted_rows subset attr (EVal.bool b) = subset) ∧
    (∀ s : String, counted_rows subset attr (EVal.str s) =
      subset.filter (fun r => rowGet r attr == s)) :=
  ⟨fun b => counted_rows_bool subset attr b, fun s => counted_rows_str subset attr s⟩

/-- C10: the base entropy is independent of the attribute argument — a boolean
`value` disables the row filter entirely, so `entropy(subset, a, True)` equals
`entropy(subset, b, True)` for any attributes `a`, `b`, and
`get_base_entropy(subset)` equals `entropy(subset, attr, True)` for every
attribute, not only the dependent one. -/
theorem c10_base_entropy_attr_independent (ds : Dataset) (subset : List Row)
    (a b : String) :
    entropy ds subset a (EVal.bool true) = entropy ds subset b (EVal.bool true) ∧
    get_base_entropy ds subset = entropy ds subset a (EVal.bool true) := by
  have h : ∀ c : String, entropy ds subset c (EVal.bool true) =
      entropyOfCounts (countsList (subset.map (fun r => rowGet r ds.dependent))) := by
    intro c
    rw [entropy, value_occurrences, counted_deps_bool]
  exact ⟨(h a).trans (h b).symm, by rw [get_base_entropy, h ds.dependent, h a]⟩

/-! ### Tree structure: shape, depth, skeleton -/

/-- The `parent_value` field of a node. -/
def DTree.parent_value : DTree → Option String
  | .leaf _ pv => pv
  | .node _ _ pv _ => pv

/-- Structural well-formedness of an induced tree relative to the dataset:
every internal node has exactly one child per value in the full dataset's
domain of its split attribute (no duplicates, no omissions), each child keyed
by the domain value that reaches it. -/
def good_shape (ds : Dataset) : DTree → Prop
  | .leaf _ _ => True
  | .node a _ _ ch =>
      ch.map Prod.fst = ds.values a ∧
      (ch.map Prod.fst).Nodup ∧
      (∀ p ∈ ch, p.2.parent_value = some p.1) ∧
      ∀ p ∈ ch, good_shape ds p.2
termination_by t => sizeOf t
decreasing_by
  rename_i hp
  have h1 := List.sizeOf_lt_of_mem hp
  have h2 : sizeOf p.2 < sizeOf p := by
    obtain ⟨x, y⟩ := p
    simp
  simp only [DTree.node.sizeOf_spec]
  omega

/-- The depth of a tree: 0 at a leaf, one more than the deepest child at an
internal node.  This is the recursion depth `create_tree` needs below the
frame that created the node. -/
def tree_depth : DTree → ℕ
  | .leaf _ _ => 0
  | .node _ _ _ ch => 1 + (ch.attach.map (fun p => tree_depth p.1.2)).foldr max 0
termination_by t => sizeOf t
decreasing_by
  have h1 := List.sizeOf_lt_of_mem p.2
  have h2 : sizeOf p.1.2 < sizeOf p.1 := by
    obtain ⟨⟨x, y⟩, hxy⟩ := p
    simp
  simp only [DTree.node.sizeOf_spec]
  omega

/-- The gain-free skeleton of a tree: split attributes, children keys, leaf
labels and parent values, with the diagnostic gain numbers erased. -/
inductive TreeSkeleton : Type where
  | leaf (label : String) (parent_value : Option String)
  | node (attr : String) (parent_value : Option String)
      (children : List (String × TreeSkeleton))

/-- Erase the information-gain annotations of a tree. -/
def skeleton : DTree → TreeSkeleton
  | .leaf l pv => .leaf l pv
  | .node a _ pv ch => .node a pv (ch.attach.map (fun p => (p.1.1, skeleton p.1.2)))
termination_by t => sizeOf t
decreasing_by
  have h1 := List.sizeOf_lt_of_mem p.2
  have h2 : sizeOf p.1.2 < sizeOf p.1 := by
    obtain ⟨⟨x, y⟩, hxy⟩ := p
    simp
  simp only [DTree.node.sizeOf_spec]
  omega

/-- Structural identity of two trees: same split attributes, same children
keys, same leaf labels (gains ignored). -/
def struct_identical (t1 t2 : DTree) : Prop :=
  skeleton t1 = skeleton t2

theorem map_fst_pair {α β : Type _} (f : α → β) (l : List α) :
    (l.map (fun v => (v, f v))).map Prod.fst = l := by
  induction l with
  | nil => rfl
  | cons a as ih =>
    simp only [List.map_cons, List.cons.injEq]
    exact ⟨trivial, ih⟩

theorem create_tree_parent (ds : Dataset) (used : List String) (subset : List Row)
    (pv : Option String) : (create_tree ds used subset pv).parent_value = pv := by
  rw [create_tree.eq_def]
  by_cases h1 : (attr_counts subset ds.dependent).length = 1
  · rw [if_pos h1]
    rfl
  · rw [if_neg h1]
    by_cases h2 : (remaining_attributes ds used).isEmpty
    · rw [dif_pos h2]
      rfl
    · rw [dif_neg h2]
      rfl

theorem remaining_attributes_nil (ds : Dataset) :
    remaining_attributes ds [] = ds.attributes := by
  simp [remaining_attributes]

theorem isEmpty_false_ne_nil {l : List String} (h : ¬ l.isEmpty = true) : l ≠ [] := by
  intro hn
  rw [hn] at h
  exact h rfl

theorem good_shape_create_tree (ds : Dataset) :
    ∀ n used subset pv, (remaining_attributes ds used).length = n →
      good_shape ds (create_tree ds used subset pv) := by
  intro n
  induction n using Nat.strong_induction_on with
  | _ n ih =>
    intro used subset pv hn
    rw [create_tree.eq_def]
    by_cases h1 : (attr_counts subset ds.dependent).length = 1
    · rw [if_pos h1]
      simp [good_shape]
    · rw [if_neg h1]
      by_cases h2 : (remaining_attributes ds used).isEmpty
      · rw [dif_pos h2]
        simp [good_shape]
      · rw [dif_neg h2]
        have hne := isEmpty_false_ne_nil h2
        have hmem := best_attr_mem ds used subset hne
        rw [good_shape]
        refine ⟨?_, ?_, ?_, ?_⟩
        · exact map_fst_pair _ _
        · rw [map_fst_pair, Dataset.values]
          exact List.nodup_dedup _
        · intro p hp
          obtain ⟨v, hv, rfl⟩ := List.mem_map.1 hp
          simpa using create_tree_parent ds _ _ _
        · intro p hp
          obtain ⟨v, hv, rfl⟩ := List.mem_map.1 hp
          exact ih _ (hn ▸ remaining_attributes_lt ds used _ hmem) _ _ _ rfl

theorem foldr_max_le {l : List ℕ} {m : ℕ} (h : ∀ x ∈ l, x ≤ m) : l.foldr max 0 ≤ m := by
  induction l with
  | nil => exact Nat.zero_le m
  | cons a as ih =>
    simp only [List.foldr_cons]
    exact max_le (h a (List.mem_cons_self a as))
      (ih (fun x hx => h x (List.mem_cons_of_mem a hx)))

theorem tree_depth_node_le {a : String} {g : ℝ} {pv : Option String}
    {ch : List (String × DTree)} {n : ℕ} (h1 : 1 ≤ n)
    (h : ∀ p ∈ ch, tree_depth p.2 ≤ n - 1) :
    tree_depth (DTree.node a g pv ch) ≤ n := by
  rw [tree_depth]
  have hb : ∀ x ∈ ch.attach.map (fun p => tree_depth p.1.2), x ≤ n - 1 := by
    intro x hx
    obtain ⟨p, hp, rfl⟩ := List.mem_map.1 hx
    exact h p.1 p.2
  have h2 := foldr_max_le hb
  omega

theorem tree_depth_create_tree (ds : Dataset) :
    ∀ n used subset pv, (remaining_attributes ds used).length = n →
      tree_depth (create_tree ds used subset pv) ≤ n := by
  intro n
  induction n using Nat.strong_induction_on with
  | _ n ih =>
    intro used subset pv hn
    rw [create_tree.eq_def]
    by_cases h1 : (attr_counts subset ds.dependent).length = 1
    · rw [if_pos h1]
      simp [tree_depth]
    · rw [if_neg h1]
      by_cases h2 : (remaining_attributes ds used).isEmpty
      · rw [dif_pos h2]
        simp [tree_depth]
      · rw [dif_neg h2]
        have hne := isEmpty_false_ne_nil h2
        have hmem := best_attr_mem ds used subset hne
        have hlt :
            (remaining_attributes ds (used ++ [(best_attr ds used subset).1])).length < n :=
          hn ▸ remaining_attributes_lt ds used _ hmem
        have hpos : 1 ≤ n := by
          rw [← hn]
          exact List.length_pos.2 hne
        apply tree_depth_node_le hpos
        intro p hp
        obtain ⟨v, hv, rfl⟩ := List.mem_map.1 hp
        exact le_trans (ih _ hlt _ _ _ rfl) (by omega)

/-! ### Claim theorems C4, C7, C8 -/

/-- C4: every internal node of a constructed tree has exactly one child per
value in the full dataset's domain of its split attribute (the domain computed
once at load time over all rows) — no duplicate children, no omitted domain
values, each child keyed by the domain value that reaches it, and this holds
recursively in the whole tree.  Domain values with no matching rows in the
node's subset still get a child. -/
theorem c4_tree_shape (ds : Dataset) (used : List String) (subset : List Row)
    (parent_value : Option String) :
    good_shape ds (create_tree ds used subset parent_value) :=
  good_shape_create_tree ds _ used subset parent_value rfl

/-- C7: for a fixed dataset (hence fixed tie-break order), `learn` is
deterministic — two runs on the same data produce structurally identical
trees: same split attributes, same children keys, same leaf labels. -/
theorem c7_deterministic (ds : Dataset) : struct_identical (learn ds) (learn ds) := rfl

/-- C8: tree construction terminates on every dataset (`create_tree` is a
total function of the model, by well-founded recursion on the eligible
attributes), and the recursion depth below the root call is bounded by the
number of independent attributes: each internal level consumes exactly one
attribute from the eligible set, and a frame with no eligible attributes
terminates at a leaf. -/
theorem c8_depth_bound (ds : Dataset) : tree_depth (learn ds) ≤ ds.attributes.length := by
  have h := tree_depth_create_tree ds (remaining_attributes ds []).length [] ds.data none rfl
  rw [remaining_attributes_nil] at h
  exact h

/-! ### Claim C1: path-local eligibility -/

/-- The per-path selection invariant of a constructed tree: at every internal
node reached from the root along a path whose split attributes are `path` and
whose accumulated filtered subset is `sub`, the eligible set considered at
that frame was nonempty and exactly `remaining_attributes ds path` — the
dataset's independent attributes minus the split attributes from the root to
the node's parent inclusive — the node's attribute/gain pair is the
maximum-gain selection over that eligible set, and each child continues with
the node's attribute appended to the path and its own filtered subset. -/
def path_selection_inv (ds : Dataset) : List String → List Row → DTree → Prop
  | _, _, .leaf _ _ => True
  | path, sub, .node a g _ ch =>
      remaining_attributes ds path ≠ [] ∧
      (a, g) = best_attr ds path sub ∧
      ∀ p ∈ ch, path_selection_inv ds (path ++ [a]) (filter_subset sub a p.1) p.2
termination_by _ _ t => sizeOf t
decreasing_by
  rename_i hp
  have h1 := List.sizeOf_lt_of_mem hp
  have h2 : sizeOf p.2 < sizeOf p := by
    obtain ⟨x, y⟩ := p
    simp
  simp only [DTree.node.sizeOf_spec]
  omega

theorem path_selection_create_tree (ds : Dataset) :
    ∀ n used subset pv, (remaining_attributes ds used).length = n →
      path_selection_inv ds used subset (create_tree ds used subset pv) := by
  intro n
  induction n using Nat.strong_induction_on with
  | _ n ih =>
    intro used subset pv hn
    rw [create_tree.eq_def]
    by_cases h1 : (attr_counts subset ds.dependent).length = 1
    · rw [if_pos h1]
      simp [path_selection_inv]
    · rw [if_neg h1]
      by_cases h2 : (remaining_attributes ds used).isEmpty
      · rw [dif_pos h2]
        simp [path_selection_inv]
      · rw [dif_neg h2]
        have hne := isEmpty_false_ne_nil h2
        have hmem := best_attr_mem ds used subset hne
        rw [path_selection_inv]
        refine ⟨hne, rfl, ?_⟩
        intro p hp
        obtain ⟨v, hv, rfl⟩ := List.mem_map.1 hp
        exact ih _ (hn ▸ remaining_attributes_lt ds used _ hmem) _ _ _ rfl

/-- C1: during tree construction, the set of attributes eligible for splitting
at any recursion frame equals the dataset's independent attributes minus
exactly the split attributes on the path from the root to that frame's parent
(inclusive): the constructed tree satisfies the per-path selection invariant
starting from the empty path at the root.  Since eligibility depends only on
the frame's own path, an attribute used only on another branch remains
eligible, and frames on different branches can have different eligible sets. -/
theorem c1_eligible_path (ds : Dataset) :
    path_selection_inv ds [] ds.data (learn ds) :=
  path_selection_create_tree ds _ [] ds.data none rfl

/-! ### Claim C5: maximum-gain selection with first-wins tie-break -/

theorem maxBySnd_le {α β : Type _} [LinearOrder β] (x : α × β) (xs : List (α × β)) :
    ∀ y ∈ x :: xs, y.2 ≤ (maxBySnd x xs).2 := by
  induction xs generalizing x with
  | nil =>
    intro y hy
    rcases List.mem_cons.1 hy with rfl | h
    · exact le_refl _
    · cases h
  | cons z zs ih =>
    intro y hy
    rw [maxBySnd]
    have hacc : x.2 ≤ (if x.2 < z.2 then z else x).2 ∧
        z.2 ≤ (if x.2 < z.2 then z else x).2 := by
      by_cases hc : x.2 < z.2
      · rw [if_pos hc]
        exact ⟨le_of_lt hc, le_refl _⟩
      · rw [if_neg hc]
        exact ⟨le_refl _, le_of_not_lt hc⟩
    have hm := ih (if x.2 < z.2 then z else x)
    rcases List.mem_cons.1 hy with rfl | h
    · exact le_trans hacc.1 (hm _ (List.mem_cons_self _ _))
    · rcases List.mem_cons.1 h with rfl | h2
      · exact le_trans hacc.2 (hm _ (List.mem_cons_self _ _))
      · exact hm y (List.mem_cons_of_mem _ h2)

theorem maxBySnd_first {α β : Type _} [LinearOrder β] (x : α × β) (xs : List (α × β)) :
    ∃ pre post, x :: xs = pre ++ maxBySnd x xs :: post ∧
      ∀ y ∈ pre, y.2 < (maxBySnd x xs).2 := by
  induction xs generalizing x with
  | nil =>
    refine ⟨[], [], rfl, ?_⟩
    intro y hy
    cases hy
  | cons z zs ih =>
    rw [maxBySnd]
    by_cases hc : x.2 < z.2
    · rw [if_pos hc]
      obtain ⟨pre, post, heq, hlt⟩ := ih z
      refine ⟨x :: pre, post, ?_, ?_⟩
      · rw [List.cons_append, ← heq]
      · intro y hy
        rcases List.mem_cons.1 hy with rfl | h
        · exact lt_of_lt_of_le hc (maxBySnd_le z zs z (List.mem_cons_self _ _))
        · exact hlt y h
    · rw [if_neg hc]
      obtain ⟨pre, post, heq, hlt⟩ := ih x
      cases pre with
      | nil =>
        rw [List.nil_append] at heq
        obtain ⟨hx, hpost⟩ := List.cons_eq_cons.1 heq
        refine ⟨[], z :: zs, ?_, ?_⟩
        · rw [List.nil_append, ← hx]
        · intro y hy
          cases hy
      | cons p ps =>
        rw [List.cons_append] at heq
        obtain ⟨hp, hzs⟩ := List.cons_eq_cons.1 heq
        rw [← hp] at hlt
        have hxlt : x.2 < (maxBySnd x zs).2 := hlt x (List.mem_cons_self x ps)
        refine ⟨x :: z :: ps, post, ?_, ?_⟩
        · rw [List.cons_append, List.cons_append, ← hzs]
        · intro y hy
          rcases List.mem_cons.1 hy with rfl | h
          · exact hxlt
          · rcases List.mem_cons.1 h with rfl | h2
            · exact lt_of_le_of_lt (le_of_not_lt hc) hxlt
            · exact hlt y (List.mem_cons_of_mem _ h2)

theorem map_decomp {α β : Type _} (g : α → β) :
    ∀ (l : List α) (s : List β) (y : β) (t : List β),
      l.map g = s ++ y :: t →
      ∃ s' x t', l = s' ++ x :: t' ∧ s = s'.map g ∧ y = g x := by
  intro l
  induction l with
  | nil =>
    intro s y t h
    rw [List.map_nil] at h
    cases s with
    | nil => cases h
    | cons b bs => cases h
  | cons a as ih =>
    intro s y t h
    cases s with
    | nil =>
      rw [List.map_cons, List.nil_append] at h
      obtain ⟨h1, h2⟩ := List.cons_eq_cons.1 h
      exact ⟨[], a, as, rfl, rfl, h1.symm⟩
    | cons b bs =>
      rw [List.map_cons, List.cons_append] at h
      obtain ⟨h1, h2⟩ := List.cons_eq_cons.1 h
      obtain ⟨s', x, t', hl, hs, hy⟩ := ih bs y t h2
      refine ⟨a :: s', x, t', ?_, ?_, hy⟩
      · rw [List.cons_append, ← hl]
      · rw [List.map_cons, ← h1, hs]

theorem ne_nil_isEmpty_false {l : List String} (h : l ≠ []) : ¬ l.isEmpty = true := by
  cases l with
  | nil => exact absurd rfl h
  | cons a as =>
    intro hF
    simp at hF

/-- C5: at a frame where the dependent tally has more than one distinct value
and at least one attribute is eligible, the emitted internal node splits on an
eligible attribute of maximal information gain over the frame's subset, ties
broken in favor of the attribute encountered first in the eligible
enumeration (the dataset's original column order), and the node records that
attribute's gain value. -/
theorem c5_argmax_selection (ds : Dataset) (used : List String) (subset : List Row)
    (parent_value : Option String)
    (h1 : (attr_counts subset ds.dependent).length ≠ 1)
    (h2 : remaining_attributes ds used ≠ []) :
    ∃ a children pre post,
      create_tree ds used subset parent_value =
        DTree.node a (information_gain ds subset a) parent_value children ∧
      remaining_attributes ds used = pre ++ a :: post ∧
      (∀ b ∈ remaining_attributes ds used,
        information_gain ds subset b ≤ information_gain ds subset a) ∧
      (∀ b ∈ pre, information_gain ds subset b < information_gain ds subset a) := by
  rw [create_tree.eq_def, if_neg h1, dif_neg (ne_nil_isEmpty_false h2)]
  obtain ⟨a0, rest, hrest⟩ := List.exists_cons_of_ne_nil h2
  have hform : best_attr ds used subset =
      maxBySnd (a0, information_gain ds subset a0)
        (rest.map (fun x => (x, information_gain ds subset x))) := by
    rw [best_attr, hrest, List.map_cons]
    rfl
  have hle : ∀ y ∈ (remaining_attributes ds used).map
      (fun x => (x, information_gain ds subset x)),
      y.2 ≤ (best_attr ds used subset).2 := by
    rw [hform, hrest, List.map_cons]
    exact maxBySnd_le _ _
  obtain ⟨preI, postI, heqI, hltI⟩ :=
    maxBySnd_first (a0, information_gain ds subset a0)
      (rest.map (fun x => (x, information_gain ds subset x)))
  rw [← hform] at hltI
  have hmap : ((a0, information_gain ds subset a0) ::
      rest.map (fun x => (x, information_gain ds subset x))) =
      (a0 :: rest).map (fun x => (x, information_gain ds subset x)) := rfl
  rw [← hform, hmap, ← hrest] at heqI
  obtain ⟨pre, A, post, hlda, hpre, hbest⟩ :=
    map_decomp (fun x => (x, information_gain ds subset x))
      (remaining_attributes ds used) preI _ postI heqI
  rw [hbest]
  refine ⟨A, _, pre, post, rfl, hlda, ?_, ?_⟩
  · intro b hb
    have hmm := hle (b, information_gain ds subset b)
      (List.mem_map_of_mem _ hb)
    rw [hbest] at hmm
    exact hmm
  · intro b hb
    have hmem2 : (b, information_gain ds subset b) ∈ preI := by
      rw [hpre]
      exact List.mem_map_of_mem _ hb
    have hmm := hltI _ hmem2
    rw [hbest] at hmm
    exact hmm

/-- A tiny concrete dataset for witnesses: one independent attribute `A`, two
rows with the same `A` value but distinct labels. -/
def dsW : Dataset :=
  { attributes := ["A"], dependent := "L",
    data := [[("A", "x"), ("L", "y1")], [("A", "x"), ("L", "y2")]] }

/-- C5 witness: the theorem instantiated at the concrete dataset `dsW`, whose
root tally has two distinct labels and one eligible attribute. -/
theorem c5_argmax_selection_witness :
    ∃ a children pre post,
      create_tree dsW [] dsW.data none =
        DTree.node a (information_gain dsW dsW.data a) none children ∧
      remaining_attributes dsW [] = pre ++ a :: post ∧
      (∀ b ∈ remaining_attributes dsW [],
        information_gain dsW dsW.data b ≤ information_gain dsW dsW.data a) ∧
      (∀ b ∈ pre, information_gain dsW dsW.data b < information_gain dsW dsW.data a) :=
  c5_argmax_selection dsW [] dsW.data none (by decide) (by decide)

/-! ### Exception model: Python failure modes made explicit -/

/-- The Python runtime exceptions the numeric core can raise: float division
by zero, and `ValueError` (from `math.log` on a non-positive argument or
`max` on an empty sequence). -/
inductive PyErr : Type where
  | zeroDivisionError
  | valueError
deriving DecidableEq

/-- Python float division `a / b`: raises `ZeroDivisionError` when `b == 0`. -/
noncomputable def safeDiv (a b : ℝ) : Except PyErr ℝ :=
  if b = 0 then throw PyErr.zeroDivisionError else pure (a / b)

/-- Python `math.log(x, 2)`: raises `ValueError` (math domain error) when
`x <= 0`. -/
noncomputable def safeLog2 (x : ℝ) : Except PyErr ℝ :=
  if x ≤ 0 then throw PyErr.valueError else pure (Real.logb 2 x)

/-- `ID3.entropy` with Python's failure modes explicit: each loop iteration
divides a count by the total and takes a base-2 log of the proportion. -/
noncomputable def entropyE (ds : Dataset) (subset : List Row) (attr : String)
    (value : EVal) : Except PyErr ℝ := do
  let terms ← (value_occurrences ds subset attr value).mapM (fun p => do
    let proportion ← safeDiv (p.2 : ℝ)
      ((((value_occurrences ds subset attr value).map Prod.snd).sum : ℕ) : ℝ)
    let lg ← safeLog2 proportion
    pure (-(proportion * lg)))
  pure terms.sum

/-- `ID3.information_gain` with Python's failure modes explicit: the base
entropy, then, for each domain value of `attr` in order, a division of the
value's count by the subset total followed by an entropy evaluation. -/
noncomputable def information_gainE (ds : Dataset) (subset : List Row) (attr : String) :
    Except PyErr ℝ := do
  let base ← entropyE ds subset ds.dependent (EVal.bool true)
  let terms ← (ds.values attr).mapM (fun v => do
    let w ← safeDiv ((((attr_counts subset attr).lookup v).getD 0 : ℕ) : ℝ)
      ((((attr_counts subset attr).map Prod.snd).sum : ℕ) : ℝ)
    let e ← entropyE ds subset attr (EVal.str v)
    pure (-(w * e)))
  pure (base + terms.sum)

/-- `ID3.create_tree` with Python's failure modes explicit: `max` of an empty
sequence raises `ValueError`, gains are computed left to right over the
eligible attributes, and children are built in domain order.  Eligibility
bookkeeping is modelled from the spec exactly as in `create_tree`. -/
noncomputable def create_treeE (ds : Dataset) (used : List String) (subset : List Row)
    (parent_value : Option String) : Except PyErr DTree :=
  if (attr_counts subset ds.dependent).length = 1 then
    pure (DTree.leaf ((attr_counts subset ds.dependent).headD ("", 0)).1 parent_value)
  else if _hr : (remaining_attributes ds used).isEmpty then
    match attr_counts subset ds.dependent with
    | [] => throw PyErr.valueError
    | c :: cs => pure (DTree.leaf (maxBySnd c cs).1 parent_value)
  else do
    let gains ← (remaining_attributes ds used).mapM
      (fun a => information_gainE ds subset a)
    match hm : (remaining_attributes ds used).zip gains with
    | [] => throw PyErr.valueError
    | x :: xs => do
      let children ← (ds.values (maxBySnd x xs).1).mapM (fun v => do
        let c ← create_treeE ds (used ++ [(maxBySnd x xs).1])
          (filter_subset subset (maxBySnd x xs).1 v) (some v)
        pure (v, c))
      pure (DTree.node (maxBySnd x xs).1 (maxBySnd x xs).2 parent_value children)
termination_by (remaining_attributes ds used).length
decreasing_by
  apply remaining_attributes_lt
  have hmm : maxBySnd x xs ∈ x :: xs := maxBySnd_mem x xs
  rw [← hm] at hmm
  exact (List.of_mem_zip hmm).1

/-- `ID3.learn` with Python's failure modes explicit. -/
noncomputable def learnE (ds : Dataset) : Except PyErr DTree :=
  create_treeE ds [] ds.data none

theorem mapM_ok {α β : Type _} (f : α → Except PyErr β) (g : α → β) :
    ∀ l : List α, (∀ x ∈ l, f x = Except.ok (g x)) → l.mapM f = Except.ok (l.map g) := by
  intro l
  induction l with
  | nil =>
    intro _
    rfl
  | cons a as ih =>
    intro h
    rw [List.mapM_cons, h a (List.mem_cons_self a as),
      ih (fun x hx => h x (List.mem_cons_of_mem a hx))]
    rfl

theorem countsList_pos {l : List String} {p : String × Nat} (hp : p ∈ countsList l) :
    1 ≤ p.2 := by
  obtain ⟨v, hv, rfl⟩ := List.mem_map.1 hp
  exact List.count_pos_iff.2 (List.mem_dedup.1 hv)

theorem countsList_snd_le_sum {l : List String} {p : String × Nat} (hp : p ∈ countsList l) :
    p.2 ≤ ((countsList l).map Prod.snd).sum := by
  rw [sum_countsList]
  obtain ⟨v, hv, rfl⟩ := List.mem_map.1 hp
  exact List.count_le_length v l

theorem entropyE_eq (ds : Dataset) (subset : List Row) (attr : String) (value : EVal) :
    entropyE ds subset attr value = Except.ok (entropy ds subset attr value) := by
  unfold entropyE entropy entropyOfCounts
  have hel : ∀ p ∈ value_occurrences ds subset attr value,
      (do
        let proportion ← safeDiv (p.2 : ℝ)
          ((((value_occurrences ds subset attr value).map Prod.snd).sum : ℕ) : ℝ)
        let lg ← safeLog2 proportion
        pure (-(proportion * lg)) : Except PyErr ℝ) =
      Except.ok
        (-(((p.2 : ℝ) /
            ((((value_occurrences ds subset attr value).map Prod.snd).sum : ℕ) : ℝ)) *
          Real.logb 2 ((p.2 : ℝ) /
            ((((value_occurrences ds subset attr value).map Prod.snd).sum : ℕ) : ℝ)))) := by
    intro p hp
    have h1 : 1 ≤ p.2 := countsList_pos hp
    have h2 : p.2 ≤ ((value_occurrences ds subset attr value).map Prod.snd).sum :=
      countsList_snd_le_sum hp
    have hSpos : (0 : ℝ) <
        ((((value_occurrences ds subset attr value).map Prod.snd).sum : ℕ) : ℝ) := by
      have := le_trans h1 h2
      exact_mod_cast Nat.lt_of_lt_of_le Nat.zero_lt_one this
    have hSne : ((((value_occurrences ds subset attr value).map Prod.snd).sum : ℕ) : ℝ) ≠ 0 :=
      ne_of_gt hSpos
    have hdiv : safeDiv (p.2 : ℝ)
        ((((value_occurrences ds subset attr value).map Prod.snd).sum : ℕ) : ℝ) =
        pure ((p.2 : ℝ) /
          ((((value_occurrences ds subset attr value).map Prod.snd).sum : ℕ) : ℝ)) := by
      unfold safeDiv
      rw [if_neg hSne]
    have hppos : (0 : ℝ) < (p.2 : ℝ) /
        ((((value_occurrences ds subset attr value).map Prod.snd).sum : ℕ) : ℝ) := by
      apply div_pos _ hSpos
      exact_mod_cast Nat.lt_of_lt_of_le Nat.zero_lt_one h1
    have hlog : safeLog2 ((p.2 : ℝ) /
        ((((value_occurrences ds subset attr value).map Prod.snd).sum : ℕ) : ℝ)) =
        pure (Real.logb 2 ((p.2 : ℝ) /
          ((((value_occurrences ds subset attr value).map Prod.snd).sum : ℕ) : ℝ))) := by
      unfold safeLog2
      rw [if_neg (not_le.mpr hppos)]
    simp only [hdiv, pure_bind, hlog]
    rfl
  rw [mapM_ok _ _ _ hel]
  rfl

theorem ok_bind {α β : Type _} (a : α) (f : α → Except PyErr β) :
    (Except.ok a >>= f) = f a := rfl

theorem attr_counts_sum (subset : List Row) (attr : String) :
    ((attr_counts subset attr).map Prod.snd).sum = subset.length := by
  rw [attr_counts, sum_countsList, List.length_map]

theorem information_gainE_eq (ds : Dataset) (subset : List Row) (attr : String)
    (h : subset ≠ []) :
    information_gainE ds subset attr = Except.ok (information_gain ds subset attr) := by
  have hSne : ((((attr_counts subset attr).map Prod.snd).sum : ℕ) : ℝ) ≠ 0 := by
    rw [attr_counts_sum]
    have := List.length_pos.2 h
    exact_mod_cast Nat.pos_iff_ne_zero.1 this
  unfold information_gainE information_gain
  rw [entropyE_eq]
  have hel : ∀ v ∈ ds.values attr,
      (do
        let w ← safeDiv ((((attr_counts subset attr).lookup v).getD 0 : ℕ) : ℝ)
          ((((attr_counts subset attr).map Prod.snd).sum : ℕ) : ℝ)
        let e ← entropyE ds subset attr (EVal.str v)
        pure (-(w * e)) : Except PyErr ℝ) = Except.ok (gain_term ds subset attr v) := by
    intro v _
    have hdiv : safeDiv ((((attr_counts subset attr).lookup v).getD 0 : ℕ) : ℝ)
        ((((attr_counts subset attr).map Prod.snd).sum : ℕ) : ℝ) =
        pure (((((attr_counts subset attr).lookup v).getD 0 : ℕ) : ℝ) /
          ((((attr_counts subset attr).map Prod.snd).sum : ℕ) : ℝ)) := by
      unfold safeDiv
      rw [if_neg hSne]
    simp only [hdiv, pure_bind, entropyE_eq, ok_bind]
    rfl
  rw [mapM_ok _ _ _ hel]
  rfl

/-! ### Claim C6: information gain evaluates without raising -/

/-- C6: for every non-empty subset and every attribute, `information_gain`
evaluates without raising — the exception-explicit evaluation returns `ok`
with the pure value (no division-by-zero, no math-domain error) — and a
domain value with zero occurrences in the subset contributes a term equal to
zero (count 0 gives weight 0). -/
theorem c6_gain_total (ds : Dataset) (subset : List Row) (attr : String)
    (h : subset ≠ []) :
    information_gainE ds subset attr = Except.ok (information_gain ds subset attr) ∧
    ∀ v, (subset.map (fun r => rowGet r attr)).count v = 0 →
      gain_term ds subset attr v = 0 := by
  refine ⟨information_gainE_eq ds subset attr h, ?_⟩
  intro v hv
  have hlk : ((attr_counts subset attr).lookup v).getD 0 = 0 := by
    rw [attr_counts, lookup_countsList, hv]
  rw [gain_term, hlk]
  norm_num

/-- C6 witness: the theorem instantiated at `dsW` and a concrete non-empty
one-row subset. -/
theorem c6_gain_total_witness :
    information_gainE dsW [[("A", "x"), ("L", "y1")]] "A" =
      Except.ok (information_gain dsW [[("A", "x"), ("L", "y1")]] "A") ∧
    ∀ v, ([[("A", "x"), ("L", "y1")]].map (fun r => rowGet r "A")).count v = 0 →
      gain_term dsW [[("A", "x"), ("L", "y1")]] "A" v = 0 :=
  c6_gain_total dsW [[("A", "x"), ("L", "y1")]] "A" (by decide)

/-! ### Claim C2: behaviour on an empty dataset -/

theorem information_gainE_data_nil (ds : Dataset) (hdata : ds.data = []) (attr : String) :
    information_gainE ds [] attr =
      Except.ok (entropy ds [] ds.dependent (EVal.bool true) + List.sum []) := by
  unfold information_gainE
  rw [entropyE_eq]
  have hvals : ds.values attr = [] := by
    rw [Dataset.values, hdata]
    rfl
  rw [hvals]
  rfl

theorem learnE_empty_ok (ds : Dataset) (h0 : ds.data = []) (h1 : ds.attributes ≠ []) :
    ∃ a g, learnE ds = Except.ok (DTree.node a g none []) := by
  unfold learnE
  rw [create_treeE.eq_def, h0]
  have hc1 : ¬ (attr_counts ([] : List Row) ds.dependent).length = 1 := by
    simp [attr_counts, countsList]
  have hrne : ¬ (remaining_attributes ds []).isEmpty = true := by
    rw [remaining_attributes_nil]
    exact ne_nil_isEmpty_false h1
  rw [if_neg hc1, dif_neg hrne]
  have hgains := mapM_ok (fun a => information_gainE ds [] a)
      (fun _ => entropy ds [] ds.dependent (EVal.bool true) + List.sum [])
      (remaining_attributes ds [])
      (fun a _ => information_gainE_data_nil ds h0 a)
  rw [hgains, ok_bind]
  obtain ⟨b, bs, hbs⟩ := List.exists_cons_of_ne_nil h1
  have hrem : remaining_attributes ds [] = b :: bs := by
    rw [remaining_attributes_nil, hbs]
  rw [hrem]
  simp only [List.map_cons, List.zip_cons_cons]
  have hvals : ∀ s, ds.values s = [] := by
    intro s
    rw [Dataset.values, h0]
    rfl
  rw [hvals]
  exact ⟨_, _, rfl⟩

/-- A concrete dataset with one independent attribute and zero rows. -/
def dsEmpty : Dataset :=
  { attributes := ["A"], dependent := "L", data := [] }

/-- C2 counterexample: the claim says induction on a zero-row dataset fails
with an `EmptyDatasetError`, but the code has no such check: on the concrete
zero-row dataset `dsEmpty`, `learn` raises nothing at all and returns a
childless internal node (every attribute's domain is empty, so no recursive
call and no division is ever made). -/
theorem c2_counterexample :
    ∃ a g, learnE dsEmpty = Except.ok (DTree.node a g none []) :=
  learnE_empty_ok dsEmpty rfl (by decide)

/-- C2 (amended): invoking induction on a Dataset with zero rows (and at
least one independent attribute) raises no exception whatsoever — there is no
emptiness check anywhere in `learn`/`create_tree` — and construction
completes, emitting a single internal node with no children, because every
attribute's domain is empty; in particular no division-by-zero occurs. -/
theorem c2_empty_no_error (ds : Dataset) (h0 : ds.data = []) (h1 : ds.attributes ≠ []) :
    ∃ a g, learnE ds = Except.ok (DTree.node a g none []) :=
  learnE_empty_ok ds h0 h1

/-- C2 witness: the amended theorem applied at the concrete zero-row dataset
`dsEmpty`. -/
theorem c2_empty_no_error_witness :
    ∃ a g, learnE dsEmpty = Except.ok (DTree.node a g none []) :=
  c2_empty_no_error dsEmpty rfl (by decide)

/-! ### Claim C9: entropy bounds -/

theorem one_sub_inv_le_log {x : ℝ} (hx : 0 < x) : 1 - 1/x ≤ Real.log x := by
  have h := Real.log_le_sub_one_of_pos (show (0:ℝ) < 1/x by positivity)
  rw [one_div, Real.log_inv] at h
  rw [one_div]
  linarith

theorem entropyOfCounts_countsList (l : List String) :
    entropyOfCounts (countsList l) =
      ∑ v in l.toFinset,
        -((l.count v : ℝ) / (l.length : ℝ) *
          Real.logb 2 ((l.count v : ℝ) / (l.length : ℝ))) := by
  unfold entropyOfCounts
  rw [sum_countsList, countsList, List.map_map,
    ← List.sum_toFinset _ (List.nodup_dedup l), toFinset_dedup' l]
  apply Finset.sum_congr rfl
  intro v _
  rfl

theorem entropyOfCounts_nonneg (l : List String) :
    0 ≤ entropyOfCounts (countsList l) := by
  rw [entropyOfCounts_countsList]
  apply Finset.sum_nonneg
  intro v hv
  have h1 : 0 < l.count v := List.count_pos_iff.2 (List.mem_toFinset.1 hv)
  have h2 : l.count v ≤ l.length := List.count_le_length v l
  have hn : 0 < l.length := lt_of_lt_of_le h1 h2
  have hp1 : (0:ℝ) < (l.count v : ℝ) / (l.length : ℝ) := by
    apply div_pos
    · exact_mod_cast h1
    · exact_mod_cast hn
  have hp2 : (l.count v : ℝ) / (l.length : ℝ) ≤ 1 := by
    rw [div_le_one (by exact_mod_cast hn)]
    exact_mod_cast h2
  have hlog : Real.logb 2 ((l.count v : ℝ) / (l.length : ℝ)) ≤ 0 :=
    Real.logb_nonpos (by norm_num) (le_of_lt hp1) hp2
  have hmul : (l.count v : ℝ) / (l.length : ℝ) *
      Real.logb 2 ((l.count v : ℝ) / (l.length : ℝ)) ≤ 0 :=
    mul_nonpos_iff.2 (Or.inl ⟨le_of_lt hp1, hlog⟩)
  linarith

theorem entropyOfCounts_le_logb_card (l : List String) :
    entropyOfCounts (countsList l) ≤ Real.logb 2 (l.toFinset.card : ℝ) := by
  rcases eq_or_ne l [] with rfl | hne
  · rw [entropyOfCounts_countsList]
    simp
  · rw [entropyOfCounts_countsList]
    have hn : 0 < l.length := List.length_pos.2 hne
    have hnR : (0:ℝ) < (l.length : ℝ) := by exact_mod_cast hn
    have hk : 0 < l.toFinset.card := by
      rw [Finset.card_pos]
      obtain ⟨a, as, rfl⟩ := List.exists_cons_of_ne_nil hne
      exact ⟨a, by simp⟩
    have hkR : (0:ℝ) < (l.toFinset.card : ℝ) := by exact_mod_cast hk
    have hlog2 : (0:ℝ) < Real.log 2 := Real.log_pos (by norm_num)
    have hp : ∀ v ∈ l.toFinset, (0:ℝ) < (l.count v : ℝ) / (l.length : ℝ) := by
      intro v hv
      apply div_pos _ hnR
      exact_mod_cast List.count_pos_iff.2 (List.mem_toFinset.1 hv)
    have hpsum : ∑ v in l.toFinset, (l.count v : ℝ) / (l.length : ℝ) = 1 := by
      rw [← Finset.sum_div, div_eq_one_iff_eq (ne_of_gt hnR)]
      exact_mod_cast List.sum_toFinset_count_eq_length l
    have hterm : ∀ v ∈ l.toFinset,
        ((l.count v : ℝ) / (l.length : ℝ) - 1/(l.toFinset.card : ℝ)) / Real.log 2 ≤
        (l.count v : ℝ) / (l.length : ℝ) *
          Real.logb 2 ((l.toFinset.card : ℝ) * ((l.count v : ℝ) / (l.length : ℝ))) := by
      intro v hv
      have hpv := hp v hv
      have hcv : (0:ℝ) < (l.count v : ℝ) := by
        exact_mod_cast List.count_pos_iff.2 (List.mem_toFinset.1 hv)
      have hkp : (0:ℝ) < (l.toFinset.card : ℝ) * ((l.count v : ℝ) / (l.length : ℝ)) :=
        mul_pos hkR hpv
      have hlog1 := one_sub_inv_le_log hkp
      have hmono : (1 - 1/((l.toFinset.card : ℝ) * ((l.count v : ℝ) / (l.length : ℝ)))) /
          Real.log 2 ≤
          Real.log ((l.toFinset.card : ℝ) * ((l.count v : ℝ) / (l.length : ℝ))) /
            Real.log 2 :=
        (div_le_div_iff_of_pos_right hlog2).2 hlog1
      have heq : ((l.count v : ℝ) / (l.length : ℝ) - 1/(l.toFinset.card : ℝ)) /
          Real.log 2 =
          ((l.count v : ℝ) / (l.length : ℝ)) *
            ((1 - 1/((l.toFinset.card : ℝ) * ((l.count v : ℝ) / (l.length : ℝ)))) /
              Real.log 2) := by
        field_simp
        ring
      rw [heq, Real.logb]
      exact mul_le_mul_of_nonneg_left hmono (le_of_lt hpv)
    have hsum0 : ∑ v in l.toFinset,
        ((l.count v : ℝ) / (l.length : ℝ) - 1/(l.toFinset.card : ℝ)) / Real.log 2 = 0 := by
      rw [← Finset.sum_div, Finset.sum_sub_distrib, hpsum, Finset.sum_const, nsmul_eq_mul,
        mul_one_div, div_self (ne_of_gt hkR)]
      simp
    have hmain : (0:ℝ) ≤ ∑ v in l.toFinset,
        (l.count v : ℝ) / (l.length : ℝ) *
          Real.logb 2 ((l.toFinset.card : ℝ) * ((l.count v : ℝ) / (l.length : ℝ))) := by
      rw [← hsum0]
      exact Finset.sum_le_sum hterm
    have hexp : ∀ v ∈ l.toFinset,
        (l.count v : ℝ) / (l.length : ℝ) *
          Real.logb 2 ((l.toFinset.card : ℝ) * ((l.count v : ℝ) / (l.length : ℝ))) =
        (l.count v : ℝ) / (l.length : ℝ) * Real.logb 2 (l.toFinset.card : ℝ) +
        (l.count v : ℝ) / (l.length : ℝ) *
          Real.logb 2 ((l.count v : ℝ) / (l.length : ℝ)) := by
      intro v hv
      rw [Real.logb_mul (ne_of_gt hkR) (ne_of_gt (hp v hv)), mul_add]
    rw [Finset.sum_congr rfl hexp, Finset.sum_add_distrib, ← Finset.sum_mul, hpsum,
      one_mul] at hmain
    rw [Finset.sum_neg_distrib]
    linarith

theorem logb_le_logb_nat {j m : ℕ} (h : j ≤ m) :
    Real.logb 2 (j : ℝ) ≤ Real.logb 2 (m : ℝ) := by
  rcases Nat.eq_zero_or_pos j with rfl | hj
  · rw [Nat.cast_zero, Real.logb_zero]
    rcases Nat.eq_zero_or_pos m with rfl | hm
    · rw [Nat.cast_zero, Real.logb_zero]
    · exact Real.logb_nonneg (by norm_num) (by exact_mod_cast hm)
  · exact Real.logb_le_logb_of_le (by norm_num) (by exact_mod_cast hj) (by exact_mod_cast h)

/-- C9: for any subset drawn from the dataset's rows, any attribute and any
value, `entropy(subset, attr, value)` lies in the closed interval from 0 to
log2 of the size of the dependent attribute's domain; in particular if the
counted distribution is empty the entropy is 0. -/
theorem c9_entropy_bounds (ds : Dataset) (subset : List Row) (attr : String) (value : EVal)
    (hsub : ∀ r ∈ subset, r ∈ ds.data) :
    0 ≤ entropy ds subset attr value ∧
    entropy ds subset attr value ≤
      Real.logb 2 ((ds.values ds.dependent).length : ℝ) ∧
    (counted_deps ds.dependent subset attr value = [] →
      entropy ds subset attr value = 0) := by
  have hdeps : ∀ s ∈ counted_deps ds.dependent subset attr value,
      s ∈ ds.values ds.dependent := by
    intro s hs
    obtain ⟨r, hr, rfl⟩ := List.mem_map.1 hs
    have hrsub : r ∈ subset := List.mem_of_mem_filter hr
    have hrdata : r ∈ ds.data := hsub r hrsub
    rw [Dataset.values]
    exact List.mem_dedup.2 (List.mem_map_of_mem _ hrdata)
  refine ⟨?_, ?_, ?_⟩
  · exact entropyOfCounts_nonneg _
  · have h1 := entropyOfCounts_le_logb_card (counted_deps ds.dependent subset attr value)
    have hvnd : (ds.values ds.dependent).Nodup := by
      rw [Dataset.values]
      exact List.nodup_dedup _
    have hcard : (counted_deps ds.dependent subset attr value).toFinset.card ≤
        (ds.values ds.dependent).length := by
      have hsubF : (counted_deps ds.dependent subset attr value).toFinset ⊆
          (ds.values ds.dependent).toFinset := by
        intro x hx
        exact List.mem_toFinset.2 (hdeps x (List.mem_toFinset.1 hx))
      have h2 := Finset.card_le_card hsubF
      rwa [List.toFinset_card_of_nodup hvnd] at h2
    exact le_trans h1 (logb_le_logb_nat hcard)
  · intro h0
    rw [entropy, value_occurrences, h0]
    rfl

/-- C9 witness: the theorem instantiated at `dsW` and the concrete one-row
subset consisting of the first row of `dsW`. -/
theorem c9_entropy_bounds_witness :
    0 ≤ entropy dsW [[("A", "x"), ("L", "y1")]] "A" (EVal.bool true) ∧
    entropy dsW [[("A", "x"), ("L", "y1")]] "A" (EVal.bool true) ≤
      Real.logb 2 ((dsW.values dsW.dependent).length : ℝ) ∧
    (counted_deps dsW.dependent [[("A", "x"), ("L", "y1")]] "A" (EVal.bool true) = [] →
      entropy dsW [[("A", "x"), ("L", "y1")]] "A" (EVal.bool true) = 0) :=
  c9_entropy_bounds dsW [[("A", "x"), ("L", "y1")]] "A" (EVal.bool true) (by decide)
